import Mathlib

/-!
Verification of the DevTools bundled-resource data source
(`shell/browser/ui/devtools_ui.cc`: `BundledDataSource`,
`StripDevToolsRevisionWithPrefix`, `PathWithoutParams`, `GetMimeTypeForUrl`,
`StartDataRequest`, `MaybeHandleCustomRequest`, `StartFileRequest`,
`StartBundledDataRequest`, `ReadFileForDevTools`).

Strings are embedded as `List Char`.  External collaborators (Chromium `base`
and `GURL`) are modelled component by component from their documented
semantics:
  * `base::ToLowerASCII` lowers only the ASCII range A-Z;
  * `base::StartsWith` / `base::EndsWith` with
    `CompareCase::INSENSITIVE_ASCII` compare the ASCII-lowered strings;
  * `std::string::find(c, pos)` returns the first index `>= pos` holding `c`;
  * `GURL::Resolve` of a path-only relative reference against the synthetic
    base `devtools://devtools/` merges the path with the root and applies
    RFC 3986 `remove_dot_segments`; `.path()` excludes query and fragment;
  * `base::FilePath` is a component list; `AppendASCII` appends the slash
    separated components of the argument; `IsParent` is a literal
    (unresolved) strict component-prefix test, per `AppendRelativePath`.
-/

namespace DevToolsUI

/-- Characters of a C++ `std::string`. -/
abbrev Str := List Char

/-- ASCII-only lowering of one character, after `base::ToLowerASCII`:
the twenty-six characters `'A'`-`'Z'` map to their lowercase counterparts,
everything else is unchanged. -/
def toLowerASCII (c : Char) : Char :=
  match c with
  | 'A' => 'a' | 'B' => 'b' | 'C' => 'c' | 'D' => 'd' | 'E' => 'e' | 'F' => 'f'
  | 'G' => 'g' | 'H' => 'h' | 'I' => 'i' | 'J' => 'j' | 'K' => 'k' | 'L' => 'l'
  | 'M' => 'm' | 'N' => 'n' | 'O' => 'o' | 'P' => 'p' | 'Q' => 'q' | 'R' => 'r'
  | 'S' => 's' | 'T' => 't' | 'U' => 'u' | 'V' => 'v' | 'W' => 'w' | 'X' => 'x'
  | 'Y' => 'y' | 'Z' => 'z'
  | other => other

/-- ASCII-lowering of a whole string. -/
def lowerStr (s : Str) : Str := s.map toLowerASCII

/-- Boolean test that the second list begins with the first. -/
def leadsWith [BEq α] : List α → List α → Bool
  | [], _ => true
  | _ :: _, [] => false
  | a :: pat, b :: s => a == b && leadsWith pat s

/-- Boolean test that `s` ends with `pat` (character-wise equality). -/
def trailsWith (pat s : Str) : Bool := leadsWith pat.reverse s.reverse

/-- Model of `base::StartsWith(path, pat, CompareCase::INSENSITIVE_ASCII)`. -/
def startsWithCI (path pat : Str) : Bool := leadsWith (lowerStr pat) (lowerStr path)

/-- Model of `base::EndsWith(path, pat, CompareCase::INSENSITIVE_ASCII)`. -/
def endsWithCI (path pat : Str) : Bool := trailsWith (lowerStr pat) (lowerStr path)

/-- Index of the first occurrence of `c` in `l`, if any. -/
def findChar (c : Char) : Str → Option Nat
  | [] => none
  | a :: rest => if a == c then some 0 else (findChar c rest).map (· + 1)

/-- Model of `std::string::find(c, start)`: index of the first occurrence of
`c` at position `start` or later (`none` plays `std::string::npos`). -/
def findFrom (l : Str) (c : Char) (start : Nat) : Option Nat :=
  (findChar c (l.drop start)).map (· + start)

/-- Source function `StripDevToolsRevisionWithPrefix` (devtools_ui.cc): when
`path` starts (ASCII case-insensitively) with the marker `pre`, look for a
`'/'` from offset `pre.length + 1` on; if found, keep only what follows it,
otherwise log a diagnostic and return the path unchanged. -/
def stripDevToolsRevision (path pre : Str) : Str :=
  if startsWithCI path pre then
    match findFrom path '/' (pre.length + 1) with
    | some found => path.drop (found + 1)
    | none => path
  else path

/-- Revision marker `"serve_rev/"`. -/
def serveRevMarker : Str := "serve_rev/".toList

/-- Revision marker `"serve_file/"`. -/
def serveFileMarker : Str := "serve_file/".toList

/-- Revision marker `"serve_internal_file/"`. -/
def serveInternalFileMarker : Str := "serve_internal_file/".toList

/-- The three revision markers stripped by `MaybeHandleCustomRequest`, in
source order. -/
def revisionMarkers : List Str := [serveRevMarker, serveFileMarker, serveInternalFileMarker]

/-- The three successive stripping calls of `MaybeHandleCustomRequest`
(devtools_ui.cc lines 130-135). -/
def stripAll (path : Str) : Str :=
  stripDevToolsRevision
    (stripDevToolsRevision (stripDevToolsRevision path serveRevMarker) serveFileMarker)
    serveInternalFileMarker

/-- Characters of the path component of a URL string: everything before the
first `'?'` or `'#'` (query and fragment are not part of `GURL::path()`). -/
def stripParams (p : Str) : Str := p.takeWhile (fun c => !(c == '?' || c == '#'))

/-- Path segment `"."`. -/
def dotSeg : Str := ['.']

/-- Path segment `".."`. -/
def dotdotSeg : Str := ['.', '.']

/-- Split a string on `'/'`; always returns at least one segment. -/
def splitSlash : Str → List Str
  | [] => [[]]
  | c :: rest =>
    if c == '/' then [] :: splitSlash rest
    else
      match splitSlash rest with
      | s :: ss => (c :: s) :: ss
      | [] => [[c]]

/-- Join segments with `'/'`. -/
def joinSlash : List Str → Str
  | [] => []
  | [s] => s
  | s :: rest => s ++ '/' :: joinSlash rest

/-- RFC 3986 `remove_dot_segments` on the segment list of an absolute path
(the algorithm URL canonicalization applies inside `GURL::Resolve`).  The
accumulator holds already-emitted segments in reverse; a trailing `"."` or
`".."` leaves a trailing empty segment, i.e. a trailing slash. -/
def rdsAux : List Str → List Str → List Str
  | acc, [] => acc.reverse
  | acc, [seg] =>
    if seg = dotdotSeg then ([] :: acc.tail).reverse
    else if seg = dotSeg then ([] :: acc).reverse
    else (seg :: acc).reverse
  | acc, seg :: rest =>
    if seg = dotdotSeg then rdsAux acc.tail rest
    else if seg = dotSeg then rdsAux acc rest
    else rdsAux (seg :: acc) rest

/-- Merge step of `GURL::Resolve` for a path-only reference against the base
`devtools://devtools/`: the reference merges with the base path `"/"`, so a
leading slash is dropped and otherwise the reference stands as is; the
result is the absolute path without its leading slash. -/
def relOfRaw (raw : Str) : Str :=
  if (stripParams raw).head? = some '/' then (stripParams raw).tail else stripParams raw

/-- Source function `PathWithoutParams` (devtools_ui.cc): resolve the raw
path against the base `devtools://devtools/` (whose canonical path is `"/"`),
take the path component (so query and fragment are dropped and dot segments
are removed by URL resolution) and drop the leading slash. -/
def pathWithoutParams (raw : Str) : Str :=
  joinSlash (rdsAux [] (splitSlash (relOfRaw raw)))

/-- Model of `GURL::ExtractFileName`: the final segment of the path
component (text after the last slash, query and fragment excluded). -/
def extractFileName (p : Str) : Str := ((splitSlash (stripParams p)).reverse).headD []

/-- Source function `GetMimeTypeForUrl` (devtools_ui.cc): a chain of ASCII
case-insensitive `EndsWith` tests on the URL's file name, defaulting to
`text/html`. -/
def getMimeTypeForUrl (p : Str) : Str :=
  let filename := extractFileName p
  if endsWithCI filename ".html".toList then "text/html".toList
  else if endsWithCI filename ".css".toList then "text/css".toList
  else if endsWithCI filename ".js".toList || endsWithCI filename ".mjs".toList then
    "application/javascript".toList
  else if endsWithCI filename ".png".toList then "image/png".toList
  else if endsWithCI filename ".map".toList then "application/json".toList
  else if endsWithCI filename ".ts".toList then "application/x-typescript".toList
  else if endsWithCI filename ".gif".toList then "image/gif".toList
  else if endsWithCI filename ".svg".toList then "image/svg+xml".toList
  else if endsWithCI filename ".manifest".toList then "text/cache-manifest".toList
  else "text/html".toList

/-- Extension of a file name given its characters in reverse: the characters
up to and including the last `'.'` of the name, returned in forward order
(`none` when the name has no dot). -/
def extOfRev : Str → Option Str
  | [] => none
  | c :: rest => if c == '.' then some ['.'] else (extOfRev rest).map (fun e => e ++ [c])

/-- Modelled from the spec (§4.5 MIME Classifier): `classify(path)` is a pure
function of the final path-segment's extension, case-insensitive, given by
the fixed table with default `text/html`. -/
def classifySpec (p : Str) : Str :=
  match extOfRev (lowerStr (extractFileName p)).reverse with
  | some e =>
    if e = ".html".toList then "text/html".toList
    else if e = ".css".toList then "text/css".toList
    else if e = ".js".toList then "application/javascript".toList
    else if e = ".mjs".toList then "application/javascript".toList
    else if e = ".png".toList then "image/png".toList
    else if e = ".map".toList then "application/json".toList
    else if e = ".ts".toList then "application/x-typescript".toList
    else if e = ".gif".toList then "image/gif".toList
    else if e = ".svg".toList then "image/svg+xml".toList
    else if e = ".manifest".toList then "text/cache-manifest".toList
    else "text/html".toList
  | none => "text/html".toList

/-- A `base::FilePath` as its component list. -/
abbrev FsPath := List Str

/-- Reasons `base::ReadFileToString` can fail; the C++ API collapses them all
into a single `false` return, so no detail survives the call. -/
inductive ReadError where
  | missing
  | permission
  | ioError
deriving DecidableEq

/-- Observable actions of the data source while serving one request, in
order.  `respond` is one invocation of the `GotDataCallback` (`async` is true
when it is delivered from the worker pool, false when run synchronously);
`readFile` is a filesystem read issued at the given path; `tableLookup` is a
`GetFrontendResourceBytes` query; `crash` is unconditional process
termination by a failed `CHECK`. -/
inductive Event where
  | respond (async : Bool) (r : Option Str)
  | readFile (p : FsPath)
  | tableLookup (key : Str)
  | crash
deriving DecidableEq

/-- The process-wide override configuration, as derived from
`GetCustomDevToolsFrontendURL`: `noOverride` when the switch is absent or
the URL invalid; `localDirectory` when the URL has the `file:` scheme (the
payload is the `net::FileURLToFilePath` result, `none` on failure); `remote`
when the URL is valid with any other scheme. -/
inductive OverrideConfig where
  | noOverride
  | localDirectory (root : Option FsPath)
  | remote
deriving DecidableEq

/-- Body of `CreateNotFoundResponse` (devtools_ui.cc line 38). -/
def notFoundBody : Str := "HTTP/1.1 404 Not Found\n\n".toList

/-- Source function `ReadFileForDevTools` (devtools_ui.cc lines 44-52): read
the file; on any failure log an error and return the not-found response,
otherwise return the bytes read. -/
def readFileForDevTools (fs : FsPath → Except ReadError Str) (p : FsPath) : Option Str :=
  match fs p with
  | .error _ => some notFoundBody
  | .ok b => some b

/-- Model of `base::FilePath::AppendASCII`: appending an empty component is
a no-op, otherwise the slash-separated components of `rel` are appended
literally (no `..` resolution). -/
def appendASCII (base : FsPath) (rel : Str) : FsPath :=
  if rel = [] then base else base ++ splitSlash rel

/-- Model of `base::FilePath::IsParent`: the parent's components are a
proper literal prefix of the child's components; `..` components are not
resolved. -/
def isParent (parent child : FsPath) : Bool :=
  leadsWith parent child && decide (parent.length < child.length)

/-- Source function `BundledDataSource::StartFileRequest` (devtools_ui.cc
lines 200-219), with `rootOpt` the `net::FileURLToFilePath` result for the
custom frontend URL: on conversion failure, run the callback synchronously
with the not-found response; otherwise append the requested path, `CHECK`
that the base is a literal parent of the result (process termination on
failure, in every build), and post the blocking read to the worker pool,
which replies to the callback with the read result. -/
def startFileRequest (rootOpt : Option FsPath) (path : Str)
    (fs : FsPath → Except ReadError Str) : List Event :=
  match rootOpt with
  | none => [Event.respond false (some notFoundBody)]
  | some basePath =>
    if isParent basePath (appendASCII basePath path) then
      [Event.readFile (appendASCII basePath path),
       Event.respond true (readFileForDevTools fs (appendASCII basePath path))]
    else
      [Event.crash]

/-- Source function `BundledDataSource::MaybeHandleCustomRequest`
(devtools_ui.cc lines 125-145): returns whether the request was taken over
by the custom-frontend override, together with the events this produced.
With no valid override URL it declines.  With a `file:` override it strips
the three revision markers, normalizes the path and starts the file request.
With any other valid override URL it claims the request (`true`) but the
remote fetch is commented out, so nothing happens and the callback is never
run. -/
def maybeHandleCustomRequest (cfg : OverrideConfig) (path : Str)
    (fs : FsPath → Except ReadError Str) : Bool × List Event :=
  match cfg with
  | OverrideConfig.noOverride => (false, [])
  | OverrideConfig.localDirectory rootOpt =>
    (true, startFileRequest rootOpt (pathWithoutParams (stripAll path)) fs)
  | OverrideConfig.remote => (true, [])

/-- Source function `BundledDataSource::StartBundledDataRequest`
(devtools_ui.cc lines 187-198): look the normalized path up in the frontend
resource table and run the callback with the result, null or not. -/
def startBundledDataRequest (table : Str → Option Str) (path : Str) : List Event :=
  [Event.tableLookup (pathWithoutParams path), Event.respond false (table (pathWithoutParams path))]

/-- The request prefix `chrome::kChromeUIDevToolsBundledPath` plus the
trailing slash appended at devtools_ui.cc lines 152-153. -/
def bundledPathStart : Str := "bundled/".toList

/-- Source function `BundledDataSource::StartDataRequest` (devtools_ui.cc
lines 147-175): requests under the bundled prefix (ASCII case-insensitive)
are normalized, the prefix is removed, and the request is offered to the
custom-frontend override before falling back to the bundled table; any other
request is answered synchronously with a null response. -/
def startDataRequest (cfg : OverrideConfig) (table : Str → Option Str)
    (fs : FsPath → Except ReadError Str) (path : Str) : List Event :=
  if startsWithCI path bundledPathStart then
    match maybeHandleCustomRequest cfg ((pathWithoutParams path).drop bundledPathStart.length) fs with
    | (true, evs) => evs
    | (false, _) =>
      startBundledDataRequest table ((pathWithoutParams path).drop bundledPathStart.length)
  else
    [Event.respond false none]

/-- Modelled from the spec (§4.1): the stripping pass "finds the next
separator after the marker token and discards everything up to and including
it"; with no following separator the path is returned unchanged.  The search
starts right at the end of the marker token. -/
def specStripNextSep (path pre : Str) : Str :=
  if startsWithCI path pre then
    match findFrom path '/' pre.length with
    | some found => path.drop (found + 1)
    | none => path
  else path

/-- Modelled from the spec (§4.3): canonicalize an absolute component list
the way a filesystem would, resolving `.` and `..` (popping at the root
stays at the root) and dropping empty components. -/
def canonComponents : List Str → List Str → List Str
  | acc, [] => acc.reverse
  | acc, s :: rest =>
    if s = dotdotSeg then canonComponents acc.tail rest
    else if s = dotSeg then canonComponents acc rest
    else if s = [] then canonComponents acc rest
    else canonComponents (s :: acc) rest

/-- Modelled from the spec (§3, §4.3): the candidate path obtained by
joining `root` and `rel` escapes the confinement root when, on the
canonicalized form, `root` is not a strict ancestor of the candidate. -/
def escapesRoot (root : FsPath) (rel : Str) : Bool :=
  ! isParent root (canonComponents [] (appendASCII root rel))

/-- Depth tracking over path segments: `false` exactly when some `..`
segment would climb above the starting directory. -/
def segDepthOk : Nat → List Str → Bool
  | _, [] => true
  | d, s :: rest =>
    if s = dotdotSeg then
      match d with
      | 0 => false
      | d' + 1 => segDepthOk d' rest
    else if s = dotSeg then segDepthOk d rest
    else segDepthOk (d + 1) rest

/-- A segment list never resolves above its virtual root. -/
def noEscape (l : List Str) : Bool := segDepthOk 0 l

/-- The provider that ends up handling a request, per §4.2 of the spec. -/
inductive Provider where
  | bundled
  | overrideFile
  | overrideRemote
  | unhandled
deriving DecidableEq

/-- Which provider `StartDataRequest` routes a request to, as a function of
the override configuration and the request path. -/
def providerOf (cfg : OverrideConfig) (path : Str) : Provider :=
  if startsWithCI path bundledPathStart then
    match cfg with
    | OverrideConfig.noOverride => Provider.bundled
    | OverrideConfig.localDirectory _ => Provider.overrideFile
    | OverrideConfig.remote => Provider.overrideRemote
  else Provider.unhandled

/-- Whether `stripDevToolsRevision` actually strips marker `pre` from
`path`: the path carries the marker and a separator exists at offset
`pre.length + 1` or later. -/
def stripsMarker (path pre : Str) : Bool :=
  startsWithCI path pre && (findFrom path '/' (pre.length + 1)).isSome

/-- Whether an event is a callback invocation. -/
def isRespond : Event → Bool
  | Event.respond _ _ => true
  | _ => false

/-- Whether an event is a filesystem read. -/
def isReadFile : Event → Bool
  | Event.readFile _ => true
  | _ => false

/-- Number of callback invocations in an event trace. -/
def countRespond (evs : List Event) : Nat := (evs.filter isRespond).length

/-- A bundled table with no entries, for concrete evaluations. -/
def emptyTable : Str → Option Str := fun _ => none

/-- A filesystem on which every read fails, for concrete evaluations. -/
def failingFs : FsPath → Except ReadError Str := fun _ => Except.error ReadError.ioError

theorem leadsWith_append [BEq α] [LawfulBEq α] (pat t : List α) :
    leadsWith pat (pat ++ t) = true := by
  induction pat with
  | nil => rfl
  | cons a pat ih => simp [leadsWith, ih]

theorem leadsWith_iff_exists [BEq α] [LawfulBEq α] (pat s : List α) :
    leadsWith pat s = true ↔ ∃ t, s = pat ++ t := by
  induction pat generalizing s with
  | nil => simp [leadsWith]
  | cons a pat ih =>
    cases s with
    | nil => simp [leadsWith]
    | cons b s' =>
      simp only [leadsWith, Bool.and_eq_true, beq_iff_eq, ih]
      constructor
      · rintro ⟨rfl, t, rfl⟩
        exact ⟨t, rfl⟩
      · rintro ⟨t, ht⟩
        injection ht with h1 h2
        exact ⟨h1.symm, t, h2⟩

theorem dropLenAdd (a b : List α) (n : Nat) : (a ++ b).drop (a.length + n) = b.drop n := by
  induction a with
  | nil => simp
  | cons x a ih => simp [Nat.succ_add, ih]

theorem findChar_not_mem (c : Char) (l : Str) (h : c ∉ l) : findChar c l = none := by
  induction l with
  | nil => rfl
  | cons a l ih =>
    simp only [List.mem_cons, not_or] at h
    have : (a == c) = false := by simp [beq_eq_false_iff_ne]; exact fun e => h.1 e.symm
    simp [findChar, this, ih h.2]

theorem findChar_append (a b : Str) (h : '/' ∉ a) :
    findChar '/' (a ++ '/' :: b) = some a.length := by
  induction a with
  | nil => simp [findChar]
  | cons x a ih =>
    simp only [List.mem_cons, not_or] at h
    have hx : (x == '/') = false := by simp [beq_eq_false_iff_ne]; exact fun e => h.1 e.symm
    simp [findChar, hx, ih h.2]

theorem startsWithCI_self_append (pre t : Str) : startsWithCI (pre ++ t) pre = true := by
  unfold startsWithCI lowerStr
  rw [List.map_append]
  exact leadsWith_append _ _

theorem strip_found (pre rev' rest : Str) (c : Char) (h : '/' ∉ rev') :
    stripDevToolsRevision (pre ++ ((c :: rev') ++ ('/' :: rest))) pre = rest := by
  unfold stripDevToolsRevision
  rw [if_pos (startsWithCI_self_append pre ((c :: rev') ++ ('/' :: rest)))]
  have hdrop : (pre ++ ((c :: rev') ++ ('/' :: rest))).drop (pre.length + 1)
      = rev' ++ ('/' :: rest) := by
    simp [dropLenAdd pre ((c :: rev') ++ ('/' :: rest)) 1]
  have hfind : findFrom (pre ++ ((c :: rev') ++ ('/' :: rest))) '/' (pre.length + 1)
      = some (rev'.length + (pre.length + 1)) := by
    unfold findFrom
    rw [hdrop, findChar_append _ _ h]
    rfl
  rw [hfind]
  have hlen : rev'.length + (pre.length + 1) + 1 = (pre ++ (c :: rev')).length + 1 := by
    simp [List.length_append]
    omega
  have hassoc : pre ++ ((c :: rev') ++ ('/' :: rest)) = (pre ++ (c :: rev')) ++ ('/' :: rest) :=
    (List.append_assoc _ _ _).symm
  show (pre ++ ((c :: rev') ++ ('/' :: rest))).drop (rev'.length + (pre.length + 1) + 1) = rest
  rw [hlen, hassoc, dropLenAdd]
  simp

theorem strip_nosep (pre rev' : Str) (c : Char) (h : '/' ∉ rev') :
    stripDevToolsRevision (pre ++ (c :: rev')) pre = pre ++ (c :: rev') := by
  unfold stripDevToolsRevision
  rw [if_pos (startsWithCI_self_append pre (c :: rev'))]
  have hdrop : (pre ++ (c :: rev')).drop (pre.length + 1) = rev' := by
    simp [dropLenAdd pre (c :: rev') 1]
  have hfind : findFrom (pre ++ (c :: rev')) '/' (pre.length + 1) = none := by
    unfold findFrom
    rw [hdrop, findChar_not_mem _ _ h]
    rfl
  rw [hfind]

theorem strip_boundary (pre rev : Str) (h : '/' ∉ rev) :
    stripDevToolsRevision (pre ++ ('/' :: rev)) pre = pre ++ ('/' :: rev) := by
  unfold stripDevToolsRevision
  rw [if_pos (startsWithCI_self_append pre ('/' :: rev))]
  have hdrop : (pre ++ ('/' :: rev)).drop (pre.length + 1) = rev := by
    simp [dropLenAdd pre ('/' :: rev) 1]
  have hfind : findFrom (pre ++ ('/' :: rev)) '/' (pre.length + 1) = none := by
    unfold findFrom
    rw [hdrop, findChar_not_mem _ _ h]
    rfl
  rw [hfind]

/-- C7 (counterexample): at `"serve_rev//x"` a separator follows the marker
token (at index 10, the token's length), so the claim demands the remainder
`"x"`, yet `StripDevToolsRevisionWithPrefix`, whose search starts only at
offset 11, returns the path unchanged. -/
theorem c7_counterexample :
    findFrom "serve_rev//x".toList '/' serveRevMarker.length = some 10
    ∧ specStripNextSep "serve_rev//x".toList serveRevMarker = "x".toList
    ∧ stripDevToolsRevision "serve_rev//x".toList serveRevMarker = "serve_rev//x".toList
    ∧ "serve_rev//x".toList ≠ "x".toList := by
  decide

/-- C7 (amended): for a path that is a revision marker followed by a
nonempty, separator-free revision component, the pass returns exactly the
remainder after the separator that follows the component; with no separator
beyond the first character after the marker the path is returned unchanged —
in particular a separator sitting immediately at the end of the marker token
is skipped and the path comes back unchanged. -/
theorem c7_strip_amended (pre rev rest : Str) (hsep : '/' ∉ rev) (hne : rev ≠ []) :
    stripDevToolsRevision (pre ++ (rev ++ ('/' :: rest))) pre = rest
    ∧ stripDevToolsRevision (pre ++ rev) pre = pre ++ rev
    ∧ stripDevToolsRevision (pre ++ ('/' :: rev)) pre = pre ++ ('/' :: rev) := by
  cases rev with
  | nil => exact absurd rfl hne
  | cons c rev' =>
    have h' : '/' ∉ rev' := fun hm => hsep (List.mem_cons_of_mem _ hm)
    exact ⟨strip_found pre rev' rest c h', strip_nosep pre rev' c h',
      strip_boundary pre (c :: rev') hsep⟩

/-- C7 (witness): the amended statement evaluated on the marker
`"serve_rev/"`, revision `"123"` and remainder `"inspector.html"`. -/
theorem c7_strip_amended_witness :
    stripDevToolsRevision (serveRevMarker ++ ("123".toList ++ ('/' :: "inspector.html".toList)))
        serveRevMarker = "inspector.html".toList
    ∧ stripDevToolsRevision (serveRevMarker ++ "123".toList) serveRevMarker
        = serveRevMarker ++ "123".toList
    ∧ stripDevToolsRevision (serveRevMarker ++ ('/' :: "123".toList)) serveRevMarker
        = serveRevMarker ++ ('/' :: "123".toList) :=
  c7_strip_amended serveRevMarker "123".toList "inspector.html".toList (by decide) (by decide)

theorem strip_id_of_no_marker (q m : Str) (h : startsWithCI q m = false) :
    stripDevToolsRevision q m = q := by
  unfold stripDevToolsRevision
  rw [if_neg]
  simp [h]

/-- C9: when the result of the three-marker stripping pass no longer begins
with any revision marker, the pass is idempotent: applying it twice yields
the same result as applying it once. -/
theorem c9_strip_idempotent (p : Str)
    (h : ∀ m ∈ revisionMarkers, startsWithCI (stripAll p) m = false) :
    stripAll (stripAll p) = stripAll p := by
  have h1 := strip_id_of_no_marker _ _ (h serveRevMarker (by simp [revisionMarkers]))
  have h2 := strip_id_of_no_marker _ _ (h serveFileMarker (by simp [revisionMarkers]))
  have h3 := strip_id_of_no_marker _ _ (h serveInternalFileMarker (by simp [revisionMarkers]))
  show stripDevToolsRevision
      (stripDevToolsRevision (stripDevToolsRevision (stripAll p) serveRevMarker) serveFileMarker)
      serveInternalFileMarker = stripAll p
  rw [h1, h2, h3]

/-- C9 (witness): stripping `"serve_rev/1/x"` gives `"x"`, which carries no
marker, and stripping again leaves it unchanged. -/
theorem c9_strip_idempotent_witness :
    stripAll (stripAll "serve_rev/1/x".toList) = stripAll "serve_rev/1/x".toList :=
  c9_strip_idempotent "serve_rev/1/x".toList (by decide)

theorem splitSlash_ne_nil (l : Str) : splitSlash l ≠ [] := by
  cases l with
  | nil => simp [splitSlash]
  | cons c rest =>
    simp only [splitSlash]
    split
    · simp
    · split <;> simp

theorem isParent_append (root : FsPath) (rel : Str) (h : rel ≠ []) :
    isParent root (appendASCII root rel) = true := by
  unfold isParent appendASCII
  rw [if_neg h, Bool.and_eq_true]
  refine ⟨leadsWith_append _ _, ?_⟩
  simp [List.length_append, List.length_pos]
  exact splitSlash_ne_nil rel

theorem sfr_nonempty (root : FsPath) (rel : Str) (fs : FsPath → Except ReadError Str)
    (h : rel ≠ []) :
    startFileRequest (some root) rel fs
      = [Event.readFile (appendASCII root rel),
         Event.respond true (readFileForDevTools fs (appendASCII root rel))] := by
  simp only [startFileRequest]
  rw [if_pos (isParent_append root rel h)]

theorem sfr_empty (root : FsPath) (fs : FsPath → Except ReadError Str) :
    startFileRequest (some root) [] fs = [Event.crash] := by
  simp [startFileRequest, appendASCII, isParent]

/-- C1 (counterexample): with confinement root `home/u`, the relative path
`"../secret"` escapes the root, yet `StartFileRequest` issues the read (the
literal `IsParent` check passes because `..` components are not resolved);
and the empty relative path, whose candidate is the root itself and hence
not strictly inside it, makes the `CHECK` fail and the process terminate
unconditionally — in no case is the single request resolved with the
not-found outcome before the read. -/
theorem c1_counterexample :
    escapesRoot ["home".toList, "u".toList] "../secret".toList = true
    ∧ (startFileRequest (some ["home".toList, "u".toList]) "../secret".toList failingFs).any
        isReadFile = true
    ∧ escapesRoot ["home".toList, "u".toList] [] = true
    ∧ startFileRequest (some ["home".toList, "u".toList]) [] failingFs = [Event.crash] := by
  decide

/-- C1 (amended): `StartFileRequest` with a usable root either terminates
the process (`CHECK` failure, in every build, exactly when the relative path
is empty) or issues the read at the joined path — even when that path
escapes the confinement root — and responds asynchronously with the read
result; it never rejects a request with a not-found outcome before the
read. -/
theorem c1_sandbox_amended (root : FsPath) (rel : Str) (fs : FsPath → Except ReadError Str) :
    startFileRequest (some root) rel fs =
      if rel = [] then [Event.crash]
      else [Event.readFile (appendASCII root rel),
            Event.respond true (readFileForDevTools fs (appendASCII root rel))] := by
  by_cases h : rel = []
  · subst h
    rw [if_pos rfl]
    exact sfr_empty root fs
  · rw [if_neg h]
    exact sfr_nonempty root rel fs h

/-- C4: whatever the reason a read fails (missing file, permission, I/O
error), `StartFileRequest` delivers the not-found response through the same
asynchronous callback channel as success; the error detail `e` does not
appear in the outcome. -/
theorem c4_failure_is_notfound (root : FsPath) (rel : Str) (fs : FsPath → Except ReadError Str)
    (e : ReadError) (hrel : rel ≠ []) (hfs : fs (appendASCII root rel) = Except.error e) :
    startFileRequest (some root) rel fs =
      [Event.readFile (appendASCII root rel), Event.respond true (some notFoundBody)] := by
  rw [sfr_nonempty root rel fs hrel]
  unfold readFileForDevTools
  rw [hfs]

/-- C4 (witness): a failing read of `"a.html"` under root `r` resolves to
the not-found body on the callback channel. -/
theorem c4_failure_is_notfound_witness :
    startFileRequest (some ["r".toList]) "a.html".toList failingFs =
      [Event.readFile (appendASCII ["r".toList] "a.html".toList),
       Event.respond true (some notFoundBody)] :=
  c4_failure_is_notfound ["r".toList] "a.html".toList failingFs ReadError.ioError
    (by decide) rfl

/-- C5: a request whose path does not start (ASCII case-insensitively) with
the bundled prefix is answered synchronously with the null response and the
bundled table is never consulted, whatever the override configuration. -/
theorem c5_unmatched_request (cfg : OverrideConfig) (table : Str → Option Str)
    (fs : FsPath → Except ReadError Str) (path : Str)
    (h : startsWithCI path bundledPathStart = false) :
    startDataRequest cfg table fs path = [Event.respond false none]
    ∧ ∀ k, Event.tableLookup k ∉ startDataRequest cfg table fs path := by
  have he : startDataRequest cfg table fs path = [Event.respond false none] := by
    unfold startDataRequest
    rw [if_neg]
    simp [h]
  exact ⟨he, by simp [he]⟩

/-- C5 (witness): the path `"other/x"` with no override is answered with the
null response. -/
theorem c5_unmatched_request_witness :
    startDataRequest OverrideConfig.noOverride emptyTable failingFs "other/x".toList
      = [Event.respond false none] :=
  (c5_unmatched_request OverrideConfig.noOverride emptyTable failingFs "other/x".toList
    (by decide)).1

/-- C2 (counterexample): the request `"bundled/x"` matches the bundled
prefix, yet with a remote override the callback is never invoked: the
request is silently dropped with zero `respond` events. -/
theorem c2_counterexample :
    startsWithCI "bundled/x".toList bundledPathStart = true
    ∧ countRespond (startDataRequest OverrideConfig.remote emptyTable failingFs
        "bundled/x".toList) = 0 := by
  decide

/-- C2 (amended): excluding the remote-override case on a bundled-prefix
path (where the request is dropped with zero callback invocations) and the
runs the containment `CHECK` aborts (process termination), `StartDataRequest`
invokes the callback exactly once. -/
theorem c2_respond_once_amended (cfg : OverrideConfig) (table : Str → Option Str)
    (fs : FsPath → Except ReadError Str) (path : Str)
    (hrem : cfg = OverrideConfig.remote → startsWithCI path bundledPathStart = false)
    (hcrash : Event.crash ∉ startDataRequest cfg table fs path) :
    countRespond (startDataRequest cfg table fs path) = 1 := by
  by_cases hb : startsWithCI path bundledPathStart = true
  · cases cfg with
    | noOverride =>
      unfold startDataRequest
      rw [if_pos hb]
      simp [maybeHandleCustomRequest, startBundledDataRequest, countRespond, isRespond,
        List.filter]
    | localDirectory rootOpt =>
      unfold startDataRequest at hcrash ⊢
      rw [if_pos hb] at hcrash ⊢
      simp only [maybeHandleCustomRequest] at hcrash ⊢
      cases rootOpt with
      | none => simp [startFileRequest, countRespond, isRespond, List.filter]
      | some base =>
        by_cases hR :
            pathWithoutParams (stripAll ((pathWithoutParams path).drop bundledPathStart.length))
              = []
        · rw [hR] at hcrash
          rw [sfr_empty] at hcrash
          simp at hcrash
        · rw [sfr_nonempty base _ fs hR]
          simp [countRespond, isRespond, List.filter]
    | remote =>
      exact absurd hb (by simp [hrem rfl])
  · unfold startDataRequest
    rw [if_neg hb]
    simp [countRespond, isRespond, List.filter]

/-- C2 (witness): the bundled request `"bundled/inspector.js"` with no
override gets exactly one callback invocation. -/
theorem c2_respond_once_amended_witness :
    countRespond (startDataRequest OverrideConfig.noOverride emptyTable failingFs
      "bundled/inspector.js".toList) = 1 :=
  c2_respond_once_amended OverrideConfig.noOverride emptyTable failingFs
    "bundled/inspector.js".toList (fun h => nomatch h) (by decide)

/-- C3 (counterexample): with a remote override, the bundled-prefix request
`"bundled/y"` produces no events at all — no bundled-table fallthrough, but
also no explicit empty outcome: the callback is invoked zero times. -/
theorem c3_counterexample :
    startsWithCI "bundled/y".toList bundledPathStart = true
    ∧ startDataRequest OverrideConfig.remote emptyTable failingFs "bundled/y".toList = []
    ∧ countRespond (startDataRequest OverrideConfig.remote emptyTable failingFs
        "bundled/y".toList) = 0 := by
  decide

/-- C3 (amended): with a remote override, a bundled-prefix request is
claimed by the override branch and never falls through to the bundled
table, but no outcome of any kind is delivered: the event trace is empty,
so the callback is never run. -/
theorem c3_remote_amended (table : Str → Option Str) (fs : FsPath → Except ReadError Str)
    (path : Str) (h : startsWithCI path bundledPathStart = true) :
    startDataRequest OverrideConfig.remote table fs path = [] := by
  unfold startDataRequest
  rw [if_pos h]
  simp [maybeHandleCustomRequest]

/-- C3 (witness): the amended statement evaluated at `"bundled/z"`. -/
theorem c3_remote_amended_witness :
    startDataRequest OverrideConfig.remote emptyTable failingFs "bundled/z".toList = [] :=
  c3_remote_amended emptyTable failingFs "bundled/z".toList (by decide)

theorem splitSlash_no_slash (l : Str) : ∀ s ∈ splitSlash l, '/' ∉ s := by
  induction l with
  | nil =>
    intro s hs
    simp [splitSlash] at hs
    subst hs
    simp
  | cons c rest ih =>
    intro s hs
    simp only [splitSlash] at hs
    by_cases hc : (c == '/') = true
    · rw [if_pos hc] at hs
      rcases List.mem_cons.mp hs with rfl | hs'
      · simp
      · exact ih s hs'
    · rw [if_neg hc] at hs
      have hcne : c ≠ '/' := by
        intro e
        exact hc (by simp [e])
      cases heq : splitSlash rest with
      | nil => exact absurd heq (splitSlash_ne_nil rest)
      | cons s' ss =>
        rw [heq] at hs
        have hmem' : s' ∈ splitSlash rest := by
          rw [heq]
          exact List.mem_cons_self _ _
        rcases List.mem_cons.mp hs with rfl | hs'
        · intro hmem
          rcases List.mem_cons.mp hmem with h1 | h2
          · exact hcne h1.symm
          · exact ih s' hmem' h2
        · refine ih s ?_
          rw [heq]
          exact List.mem_cons_of_mem s' hs'

theorem rdsAux_mem (x : Str) : ∀ (segs acc : List Str), x ∈ rdsAux acc segs →
    x ∈ acc ∨ (x ∈ segs ∧ x ≠ dotdotSeg ∧ x ≠ dotSeg) ∨ x = [] := by
  intro segs
  induction segs with
  | nil =>
    intro acc h
    rw [rdsAux, List.mem_reverse] at h
    exact Or.inl h
  | cons seg rest ih =>
    intro acc h
    cases rest with
    | nil =>
      simp only [rdsAux] at h
      by_cases h1 : seg = dotdotSeg
      · rw [if_pos h1, List.mem_reverse] at h
        rcases List.mem_cons.mp h with rfl | h2
        · exact Or.inr (Or.inr rfl)
        · exact Or.inl (List.mem_of_mem_tail h2)
      · rw [if_neg h1] at h
        by_cases h2 : seg = dotSeg
        · rw [if_pos h2, List.mem_reverse] at h
          rcases List.mem_cons.mp h with rfl | h3
          · exact Or.inr (Or.inr rfl)
          · exact Or.inl h3
        · rw [if_neg h2, List.mem_reverse] at h
          rcases List.mem_cons.mp h with rfl | h3
          · exact Or.inr (Or.inl ⟨List.mem_cons_self _ _, h1, h2⟩)
          · exact Or.inl h3
    | cons seg2 rest2 =>
      simp only [rdsAux] at h
      by_cases h1 : seg = dotdotSeg
      · rw [if_pos h1] at h
        rcases ih _ h with ha | hb | hc
        · exact Or.inl (List.mem_of_mem_tail ha)
        · exact Or.inr (Or.inl ⟨List.mem_cons_of_mem _ hb.1, hb.2⟩)
        · exact Or.inr (Or.inr hc)
      · rw [if_neg h1] at h
        by_cases h2 : seg = dotSeg
        · rw [if_pos h2] at h
          rcases ih _ h with ha | hb | hc
          · exact Or.inl ha
          · exact Or.inr (Or.inl ⟨List.mem_cons_of_mem _ hb.1, hb.2⟩)
          · exact Or.inr (Or.inr hc)
        · rw [if_neg h2] at h
          rcases ih _ h with ha | hb | hc
          · rcases List.mem_cons.mp ha with rfl | ha'
            · exact Or.inr (Or.inl ⟨List.mem_cons_self _ _, h1, h2⟩)
            · exact Or.inl ha'
          · exact Or.inr (Or.inl ⟨List.mem_cons_of_mem _ hb.1, hb.2⟩)
          · exact Or.inr (Or.inr hc)

theorem rdsAux_no_dotdot (segs acc : List Str) (h : dotdotSeg ∉ acc) :
    dotdotSeg ∉ rdsAux acc segs := by
  intro hmem
  rcases rdsAux_mem _ _ _ hmem with h1 | h2 | h3
  · exact h h1
  · exact h2.2.1 rfl
  · exact absurd h3 (by decide)

theorem rdsAux_no_slash (segs acc : List Str) (hacc : ∀ s ∈ acc, '/' ∉ s)
    (hsegs : ∀ s ∈ segs, '/' ∉ s) : ∀ s ∈ rdsAux acc segs, '/' ∉ s := by
  intro s hs
  rcases rdsAux_mem _ _ _ hs with h1 | h2 | h3
  · exact hacc s h1
  · exact hsegs s h2.1
  · subst h3
    simp

theorem rdsAux_ne_nil : ∀ (segs acc : List Str), segs ≠ [] → rdsAux acc segs ≠ [] := by
  intro segs
  induction segs with
  | nil =>
    intro acc h
    exact absurd rfl h
  | cons seg rest ih =>
    intro acc _
    cases rest with
    | nil =>
      simp only [rdsAux]
      split
      · simp
      · split <;> simp
    | cons seg2 rest2 =>
      simp only [rdsAux]
      split
      · exact ih _ (by simp)
      · split
        · exact ih _ (by simp)
        · exact ih _ (by simp)

theorem splitSlash_single (s : Str) (h : '/' ∉ s) : splitSlash s = [s] := by
  induction s with
  | nil => rfl
  | cons c rest ih =>
    simp only [List.mem_cons, not_or] at h
    have hc : (c == '/') = false := by
      simp only [beq_eq_false_iff_ne]
      exact fun e => h.1 e.symm
    simp [splitSlash, hc, ih h.2]

theorem splitSlash_append (s t : Str) (h : '/' ∉ s) :
    splitSlash (s ++ '/' :: t) = s :: splitSlash t := by
  induction s with
  | nil => simp [splitSlash]
  | cons c rest ih =>
    simp only [List.mem_cons, not_or] at h
    have hc : (c == '/') = false := by
      simp only [beq_eq_false_iff_ne]
      exact fun e => h.1 e.symm
    simp [splitSlash, hc, ih h.2]

theorem joinSlash_split (segs : List Str) (hne : segs ≠ []) (h : ∀ s ∈ segs, '/' ∉ s) :
    splitSlash (joinSlash segs) = segs := by
  induction segs with
  | nil => exact absurd rfl hne
  | cons s rest ih =>
    cases rest with
    | nil =>
      simp only [joinSlash]
      exact splitSlash_single s (h s (List.mem_cons_self _ _))
    | cons s2 rest2 =>
      simp only [joinSlash]
      rw [splitSlash_append s (joinSlash (s2 :: rest2)) (h s (List.mem_cons_self _ _))]
      rw [ih (by simp) (fun x hx => h x (List.mem_cons_of_mem _ hx))]

theorem segDepthOk_no_dotdot : ∀ (l : List Str) (d : Nat), dotdotSeg ∉ l →
    segDepthOk d l = true := by
  intro l
  induction l with
  | nil =>
    intro d _
    rfl
  | cons s rest ih =>
    intro d h
    simp only [List.mem_cons, not_or] at h
    have hs : ¬ s = dotdotSeg := fun e => h.1 e.symm
    simp only [segDepthOk, if_neg hs]
    split
    · exact ih _ h.2
    · exact ih _ h.2

/-- C8: whenever the raw request path contains a `..` segment, the canonical
path produced by `PathWithoutParams` contains no `..` segment and never
resolves above the virtual root (URL dot-segment removal collapses them
before any use). -/
theorem c8_normalizer (raw : Str) (_h : dotdotSeg ∈ splitSlash (stripParams raw)) :
    dotdotSeg ∉ splitSlash (pathWithoutParams raw)
    ∧ noEscape (splitSlash (pathWithoutParams raw)) = true := by
  have hsegs := splitSlash_no_slash (relOfRaw raw)
  have hkey : splitSlash (pathWithoutParams raw) = rdsAux [] (splitSlash (relOfRaw raw)) := by
    unfold pathWithoutParams
    exact joinSlash_split _ (rdsAux_ne_nil _ _ (splitSlash_ne_nil _))
      (rdsAux_no_slash _ _ (by simp) hsegs)
  rw [hkey]
  refine ⟨rdsAux_no_dotdot _ _ (by simp), ?_⟩
  unfold noEscape
  exact segDepthOk_no_dotdot _ 0 (rdsAux_no_dotdot _ _ (by simp))

/-- C8 (witness): the raw path `"a/../../b"` contains `..` segments; its
canonical form contains none and does not escape. -/
theorem c8_normalizer_witness :
    dotdotSeg ∉ splitSlash (pathWithoutParams "a/../../b".toList)
    ∧ noEscape (splitSlash (pathWithoutParams "a/../../b".toList)) = true :=
  c8_normalizer "a/../../b".toList (by decide)

theorem toLowerASCII_slash (c : Char) : toLowerASCII c = '/' ↔ c = '/' := by
  constructor
  · intro h
    unfold toLowerASCII at h
    split at h
    all_goals first
      | exact absurd h (by decide)
      | exact h
  · intro h
    subst h
    rfl

theorem charLower_slash_congr (a b : Char) (h : toLowerASCII a = toLowerASCII b) :
    (a == '/') = (b == '/') := by
  by_cases ha : a = '/'
  · subst ha
    have hb : b = '/' := (toLowerASCII_slash b).mp (by rw [← h]; rfl)
    subst hb
    rfl
  · by_cases hb : b = '/'
    · subst hb
      have ha' : a = '/' := (toLowerASCII_slash a).mp (by rw [h]; rfl)
      exact absurd ha' ha
    · have h1 : (a == '/') = false := by
        simp only [beq_eq_false_iff_ne]
        exact ha
      have h2 : (b == '/') = false := by
        simp only [beq_eq_false_iff_ne]
        exact hb
      rw [h1, h2]

theorem findChar_slash_congr : ∀ (p q : Str), lowerStr p = lowerStr q →
    findChar '/' p = findChar '/' q := by
  intro p
  induction p with
  | nil =>
    intro q h
    cases q with
    | nil => rfl
    | cons b q' => simp [lowerStr] at h
  | cons a p' ih =>
    intro q h
    cases q with
    | nil => simp [lowerStr] at h
    | cons b q' =>
      simp only [lowerStr, List.map_cons, List.cons.injEq] at h
      obtain ⟨h1, h2⟩ := h
      simp only [findChar]
      rw [charLower_slash_congr a b h1, ih q' h2]

theorem findFrom_slash_congr (p q : Str) (n : Nat) (h : lowerStr p = lowerStr q) :
    findFrom p '/' n = findFrom q '/' n := by
  unfold findFrom
  have h' : List.map toLowerASCII p = List.map toLowerASCII q := h
  have hl : lowerStr (p.drop n) = lowerStr (q.drop n) := by
    unfold lowerStr
    rw [List.map_drop, List.map_drop, h']
  rw [findChar_slash_congr (p.drop n) (q.drop n) hl]

/-- C10: the bundled-prefix test and the revision-marker matching are ASCII
case-insensitive: two paths equal up to ASCII letter case are routed to the
same provider under every override configuration, and each marker strips
for one exactly when it strips for the other. -/
theorem c10_case_insensitive (p q : Str) (h : lowerStr p = lowerStr q) :
    (∀ cfg, providerOf cfg p = providerOf cfg q)
    ∧ ∀ m, stripsMarker p m = stripsMarker q m := by
  have hsw : ∀ pat, startsWithCI p pat = startsWithCI q pat := by
    intro pat
    unfold startsWithCI
    rw [h]
  constructor
  · intro cfg
    unfold providerOf
    rw [hsw]
  · intro m
    unfold stripsMarker
    rw [hsw, findFrom_slash_congr p q _ h]

theorem extOfRev_append (qr t : Str) (h : '.' ∉ qr) :
    extOfRev (qr ++ '.' :: t) = some ('.' :: qr.reverse) := by
  induction qr with
  | nil => simp [extOfRev]
  | cons c qr' ih =>
    simp only [List.mem_cons, not_or] at h
    have hc : (c == '.') = false := by
      simp only [beq_eq_false_iff_ne]
      exact fun e => h.1 e.symm
    simp [extOfRev, hc, ih h.2, List.reverse_cons, List.cons_append]

theorem extOfRev_some : ∀ (r e : Str), extOfRev r = some e →
    ∃ qr t, r = qr ++ '.' :: t ∧ '.' ∉ qr ∧ e = '.' :: qr.reverse := by
  intro r
  induction r with
  | nil =>
    intro e h
    exact absurd h (by simp [extOfRev])
  | cons c r' ih =>
    intro e h
    cases hcb : (c == '.') with
    | true =>
      have hc : c = '.' := by simpa using hcb
      subst hc
      simp [extOfRev] at h
      exact ⟨[], r', rfl, by simp, by simp [← h]⟩
    | false =>
      simp only [extOfRev, hcb, Bool.false_eq_true, if_false] at h
      rw [Option.map_eq_some'] at h
      obtain ⟨e', he', heq⟩ := h
      obtain ⟨qr, t, rfl, hnq, rfl⟩ := ih e' he'
      have hcne : c ≠ '.' := by
        intro e
        rw [e] at hcb
        simp at hcb
      refine ⟨c :: qr, t, rfl, ?_, ?_⟩
      · simp only [List.mem_cons, not_or]
        exact ⟨fun e => hcne e.symm, hnq⟩
      · rw [← heq]
        simp [List.reverse_cons]

theorem trailsWith_ext_iff (g q : Str) (hq : '.' ∉ q) :
    trailsWith ('.' :: q) g = true ↔ extOfRev g.reverse = some ('.' :: q) := by
  unfold trailsWith
  rw [leadsWith_iff_exists]
  constructor
  · rintro ⟨t, ht⟩
    rw [ht]
    have hrev : ('.' :: q).reverse = q.reverse ++ ['.'] := by simp [List.reverse_cons]
    rw [hrev, List.append_assoc]
    have h2 : '.' ∉ q.reverse := by
      rw [List.mem_reverse]
      exact hq
    have h3 := extOfRev_append q.reverse t h2
    simpa using h3
  · intro h
    obtain ⟨qr, t, hr, _, he⟩ := extOfRev_some _ _ h
    injection he with _ hq2
    refine ⟨t, ?_⟩
    rw [hr, hq2]
    simp [List.reverse_cons, List.append_assoc]

set_option maxHeartbeats 2000000 in
/-- C6: the source MIME classifier agrees everywhere with the spec's table:
it is a pure, ASCII case-insensitive function of the final path-segment's
extension, mapping exactly .html to text/html, .css to text/css, .js and
.mjs to application/javascript, .png to image/png, .map to application/json,
.ts to application/x-typescript, .gif to image/gif, .svg to image/svg+xml,
.manifest to text/cache-manifest, and everything else (including no
extension) to text/html. -/
theorem c6_mime_classifier : ∀ p : Str, getMimeTypeForUrl p = classifySpec p := by
  intro p
  simp only [getMimeTypeForUrl, classifySpec, endsWithCI]
  simp only [show lowerStr ".html".toList = ".html".toList from by decide,
    show lowerStr ".css".toList = ".css".toList from by decide,
    show lowerStr ".js".toList = ".js".toList from by decide,
    show lowerStr ".mjs".toList = ".mjs".toList from by decide,
    show lowerStr ".png".toList = ".png".toList from by decide,
    show lowerStr ".map".toList = ".map".toList from by decide,
    show lowerStr ".ts".toList = ".ts".toList from by decide,
    show lowerStr ".gif".toList = ".gif".toList from by decide,
    show lowerStr ".svg".toList = ".svg".toList from by decide,
    show lowerStr ".manifest".toList = ".manifest".toList from by decide]
  have b1 : trailsWith ".html".toList (lowerStr (extractFileName p)) = true
      ↔ extOfRev (lowerStr (extractFileName p)).reverse = some ".html".toList := by
    rw [show (".html".toList : Str) = '.' :: "html".toList from by decide]
    exact trailsWith_ext_iff _ "html".toList (by decide)
  have b2 : trailsWith ".css".toList (lowerStr (extractFileName p)) = true
      ↔ extOfRev (lowerStr (extractFileName p)).reverse = some ".css".toList := by
    rw [show (".css".toList : Str) = '.' :: "css".toList from by decide]
    exact trailsWith_ext_iff _ "css".toList (by decide)
  have b3 : trailsWith ".js".toList (lowerStr (extractFileName p)) = true
      ↔ extOfRev (lowerStr (extractFileName p)).reverse = some ".js".toList := by
    rw [show (".js".toList : Str) = '.' :: "js".toList from by decide]
    exact trailsWith_ext_iff _ "js".toList (by decide)
  have b4 : trailsWith ".mjs".toList (lowerStr (extractFileName p)) = true
      ↔ extOfRev (lowerStr (extractFileName p)).reverse = some ".mjs".toList := by
    rw [show (".mjs".toList : Str) = '.' :: "mjs".toList from by decide]
    exact trailsWith_ext_iff _ "mjs".toList (by decide)
  have b5 : trailsWith ".png".toList (lowerStr (extractFileName p)) = true
      ↔ extOfRev (lowerStr (extractFileName p)).reverse = some ".png".toList := by
    rw [show (".png".toList : Str) = '.' :: "png".toList from by decide]
    exact trailsWith_ext_iff _ "png".toList (by decide)
  have b6 : trailsWith ".map".toList (lowerStr (extractFileName p)) = true
      ↔ extOfRev (lowerStr (extractFileName p)).reverse = some ".map".toList := by
    rw [show (".map".toList : Str) = '.' :: "map".toList from by decide]
    exact trailsWith_ext_iff _ "map".toList (by decide)
  have b7 : trailsWith ".ts".toList (lowerStr (extractFileName p)) = true
      ↔ extOfRev (lowerStr (extractFileName p)).reverse = some ".ts".toList := by
    rw [show (".ts".toList : Str) = '.' :: "ts".toList from by decide]
    exact trailsWith_ext_iff _ "ts".toList (by decide)
  have b8 : trailsWith ".gif".toList (lowerStr (extractFileName p)) = true
      ↔ extOfRev (lowerStr (extractFileName p)).reverse = some ".gif".toList := by
    rw [show (".gif".toList : Str) = '.' :: "gif".toList from by decide]
    exact trailsWith_ext_iff _ "gif".toList (by decide)
  have b9 : trailsWith ".svg".toList (lowerStr (extractFileName p)) = true
      ↔ extOfRev (lowerStr (extractFileName p)).reverse = some ".svg".toList := by
    rw [show (".svg".toList : Str) = '.' :: "svg".toList from by decide]
    exact trailsWith_ext_iff _ "svg".toList (by decide)
  have b10 : trailsWith ".manifest".toList (lowerStr (extractFileName p)) = true
      ↔ extOfRev (lowerStr (extractFileName p)).reverse = some ".manifest".toList := by
    rw [show (".manifest".toList : Str) = '.' :: "manifest".toList from by decide]
    exact trailsWith_ext_iff _ "manifest".toList (by decide)
  simp only [Bool.or_eq_true, b1, b2, b3, b4, b5, b6, b7, b8, b9, b10]
  cases he : extOfRev (lowerStr (extractFileName p)).reverse with
  | none => simp
  | some e =>
    clear b1 b2 b3 b4 b5 b6 b7 b8 b9 b10
    simp only [Option.some.injEq]
    split_ifs <;> first
      | rfl
      | tauto

/-- C10 (witness): `"BUNDLED/A"` and `"bundled/a"` agree up to ASCII case,
get the same provider and the same marker-stripping decision. -/
theorem c10_case_insensitive_witness :
    providerOf OverrideConfig.noOverride "BUNDLED/A".toList
      = providerOf OverrideConfig.noOverride "bundled/a".toList
    ∧ stripsMarker "BUNDLED/A".toList serveRevMarker
      = stripsMarker "bundled/a".toList serveRevMarker :=
  ⟨(c10_case_insensitive "BUNDLED/A".toList "bundled/a".toList (by decide)).1 _,
   (c10_case_insensitive "BUNDLED/A".toList "bundled/a".toList (by decide)).2 _⟩

end DevToolsUI
